import Mathlib

/-!
Shallow embedding of `mcts_vanilla.py`, a vanilla Monte Carlo Tree Search.

The Python tree of `MCTSNode` objects linked by object references is embedded
as an arena: a list of nodes in which `parent` and the values of `child_nodes`
are indices into the list.  Children are always created (appended) after their
parent, so in every tree the search builds, a parent index is strictly smaller
than the index of the node itself; the guards `p < i` / `i < j` in the
recursive definitions below record that invariant and make the recursions
terminate.  Mutation of node fields becomes explicit arena passing: functions
that may mutate the tree take the arena and return the (possibly updated)
arena alongside their Python return values.
-/

set_option maxHeartbeats 1000000

universe u

variable {α : Type} {σ : Type}

/-- Modelled from the spec: the class `MCTSNode` (module `mcts_node`, imported
by `mcts_vanilla.py`) is not part of the source tree.  Per the spec a node
carries playout statistics `visits` and `wins`, a reference to its parent
(absent for the root), the action that led from the parent to it (absent for
the root), the ordered list of not-yet-expanded actions (the construction-time
action list, verbatim), and an insertion-ordered mapping from actions to child
nodes.  Construction sets `visits = wins = 0`, `untried_actions` to the given
action list and `child_nodes` empty. -/
structure MCTSNode (α : Type) where
  visits : Nat
  wins : Nat
  parent : Option Nat
  parent_action : Option α
  untried_actions : List α
  child_nodes : List (α × Nat)
  deriving DecidableEq

/-- An arena of MCTS nodes; node references are indices into this list. -/
abbrev Arena (α : Type) := List (MCTSNode α)

/-- The node used for an out-of-range arena read (never reached on the
well-formed arenas the theorems are about). -/
def blankNode (α : Type) : MCTSNode α :=
  { visits := 0, wins := 0, parent := none, parent_action := none,
    untried_actions := [], child_nodes := [] }

/-- Dereference a node index. -/
def getNode (t : Arena α) (i : Nat) : MCTSNode α :=
  (t.get? i).getD (blankNode α)

/-- Write a node back at an index (no-op when out of range). -/
def setNode (t : Arena α) (i : Nat) (n : MCTSNode α) : Arena α :=
  t.set i n

/-- Modelled from the spec: the game-rules collaborator (`p2_t3.Board`) is
external to the core and not part of the source tree; these are the interface
operations and contracts of the spec.  `legal_empty_iff` is the contract
"`legal_actions` is empty iff the state is terminal", `points_some_iff` is
"`points_values` is defined exactly on terminal states", and `rank` with
`rank_lt` encodes the finite-game assumption: every legal move strictly
decreases a natural-number measure, so play reaches a terminal state in
finitely many steps. -/
structure Board (σ α : Type) where
  current_player : σ → Nat
  legal_actions : σ → List α
  next_state : σ → α → σ
  is_ended : σ → Bool
  points_values : σ → Option (Nat → Int)
  rank : σ → Nat
  legal_empty_iff : ∀ s, legal_actions s = [] ↔ is_ended s = true
  points_some_iff : ∀ s, (points_values s).isSome = is_ended s
  rank_lt : ∀ s a, is_ended s = false → a ∈ legal_actions s →
    rank (next_state s a) < rank s

/-- `num_nodes = 100`: the fixed iteration budget of the search. -/
def num_nodes : Nat := 100

/-- `explore_faction = 2.`: the fixed UCB exploration constant. -/
noncomputable def explore_faction : ℝ := 2

/-- Embedding of `ucb(node, is_opponent)`.  Python floats are idealised as
real numbers and `float('inf')` as `⊤` in `EReal`.  The node's parent is
dereferenced through the arena, which is threaded through (and returned
unchanged: the function only reads fields).  A root node (no parent) would
make Python fail on `node.parent.visits`; here that unreachable case reads
visit count `0`. -/
noncomputable def ucb (t : Arena α) (i : Nat) (is_opponent : Bool) :
    Arena α × EReal :=
  let node := getNode t i
  if node.visits = 0 then (t, (⊤ : EReal))
  else
    let parentVisits : ℝ :=
      match node.parent with
      | some p => ((getNode t p).visits : ℝ)
      | none => 0
    let exploitation : ℝ := (node.wins : ℝ) / (node.visits : ℝ)
    let exploration : ℝ :=
      explore_faction * Real.sqrt (Real.log parentVisits / (node.visits : ℝ))
    (t, ((exploitation + (if is_opponent then -exploration else exploration) : ℝ) : EReal))

/-- Python's `max(l, key=f)`: left fold keeping the current best, replacing it
only when a strictly greater key appears, so the first element attaining the
maximum wins; `none` models the `ValueError` raised on an empty sequence. -/
def pyMax {β γ : Type u} [LinearOrder γ] (f : β → γ) : List β → Option β
  | [] => none
  | x :: xs => some (xs.foldl (fun best y => if f best < f y then y else best) x)

/-- Embedding of `traverse_nodes(node, board, state, bot_identity)`.  The
Python `while` loop becomes recursion; the loop condition is the truthiness of
`node.child_nodes`, of `not node.untried_actions` and of
`not board.is_ended(state)`.  The selected child's own `parent_action` field
is used to advance the state, exactly as in the source (`node.parent_action`
after `node = best_node`); in arenas built by the search that field is always
present and equal to the dictionary key.  The guard `i < j ∧ j < t.length`
records the arena invariant that a child's index is larger than its parent's
and in range; it holds on every tree the search builds and bounds the
recursion.  The arena is threaded through unchanged (the loop only reads). -/
noncomputable def traverse_nodes (b : Board σ α) (t : Arena α) (i : Nat)
    (s : σ) (bot_identity : Nat) : Arena α × Nat × σ :=
  let node := getNode t i
  if ¬node.child_nodes.isEmpty ∧ node.untried_actions.isEmpty ∧
      b.is_ended s = false then
    let is_opponent := b.current_player s ≠ bot_identity
    match pyMax (fun j => (ucb t j is_opponent).2) (node.child_nodes.map Prod.snd) with
    | some j =>
      if h : i < j ∧ j < t.length then
        match (getNode t j).parent_action with
        | some a => traverse_nodes b t j (b.next_state s a) bot_identity
        | none => (t, j, s)
      else (t, i, s)
    | none => (t, i, s)
  else (t, i, s)
termination_by t.length - i
decreasing_by omega

/-- Python dictionary assignment `d[k] = v`: replaces the value in place when
the key is present (keeping its position), otherwise appends the new entry,
preserving insertion order. -/
def dictInsert [DecidableEq α] (d : List (α × Nat)) (k : α) (v : Nat) :
    List (α × Nat) :=
  if d.any (fun q => q.1 = k) then
    d.map (fun q => if q.1 = k then (k, v) else q)
  else d ++ [(k, v)]

/-- Embedding of `expand_leaf(node, board, state)`.  When the node has an
untried action, the first one is popped, the state advanced, and a fresh child
node (with the legal actions at the advanced state as its untried actions) is
appended to the arena and registered in `child_nodes`.  As in the source, the
returned node is `node` — the node that was passed in — in both branches; the
newly created child `n` is not returned. -/
def expand_leaf [DecidableEq α] (b : Board σ α) (t : Arena α) (i : Nat)
    (s : σ) : Arena α × Nat × σ :=
  let node := getNode t i
  match node.untried_actions with
  | [] => (t, i, s)
  | action :: rest =>
    let s' := b.next_state s action
    let child : MCTSNode α :=
      { visits := 0, wins := 0, parent := some i, parent_action := some action,
        untried_actions := b.legal_actions s', child_nodes := [] }
    let t' := setNode t i
      { node with untried_actions := rest,
                  child_nodes := dictInsert node.child_nodes action t.length }
    (t' ++ [child], i, s')

/-- Embedding of `rollout(board, state)`.  The random number generator behind
`random.choice` is abstracted as `pick`: at a state `s` with `n` legal actions
the action at index `pick s % n` is chosen, so every possible uniform draw is
covered by some `pick`.  Termination comes from the board's finite-game
measure. -/
def rollout (b : Board σ α) (pick : σ → Nat) (s : σ) : σ :=
  if h : b.is_ended s = true then s
  else
    let l := b.legal_actions s
    have hl : l ≠ [] := fun he => h ((b.legal_empty_iff s).mp he)
    have hlen : 0 < l.length := List.length_pos.mpr hl
    rollout b pick (b.next_state s (l.get ⟨pick s % l.length, Nat.mod_lt _ hlen⟩))
termination_by b.rank s
decreasing_by
  exact b.rank_lt s _ (Bool.eq_false_iff.mpr h) (List.get_mem _ _ _)

/-- The two field updates `backpropagate` performs on one node: one win added
when `won`, one visit always. -/
def bumpNode (n : MCTSNode α) (won : Bool) : MCTSNode α :=
  { n with wins := n.wins + (if won then 1 else 0), visits := n.visits + 1 }

/-- Embedding of `backpropagate(node, won)`: adds one win when `won`, one
visit always, then recurses to the parent until it is absent.  The guard
`p < i` records the arena invariant that parents have smaller indices; it
holds on every tree the search builds and makes the recursion terminate. -/
def backpropagate (t : Arena α) (i : Nat) (won : Bool) : Arena α :=
  let t' := setNode t i (bumpNode (getNode t i) won)
  match (getNode t i).parent with
  | none => t'
  | some p => if hp : p < i then backpropagate t' p won else t'
termination_by i

/-- Embedding of `is_win(board, state, identity_of_bot)`.  The Python
`assert outcome is not None` raising `AssertionError` on a non-terminal state
is modelled by the `none` result; otherwise the bot's outcome score is
compared with 1. -/
def is_win (b : Board σ α) (s : σ) (identity_of_bot : Nat) : Option Bool :=
  match b.points_values s with
  | none => none
  | some outcome => some (decide (outcome identity_of_bot = 1))

/-- The ratio `x[1].wins / x[1].visits` used as the key of the final `max`;
Python float division of the two counters is idealised as an exact rational. -/
def winRate (q : α × MCTSNode α) : ℚ :=
  (q.2.wins : ℚ) / (q.2.visits : ℚ)

/-- The list built by `filter(lambda x: x[1].visits > 0, root_node.child_nodes.items())`:
the root's children, as (action, node) pairs in insertion order, restricted to
those with at least one visit. -/
def validChildren (t : Arena α) (root_node : Nat) : List (α × MCTSNode α) :=
  ((getNode t root_node).child_nodes.map (fun q => (q.1, getNode t q.2))).filter
    (fun q => 0 < q.2.visits)

/-- Result of `get_best_action`: a chosen action, Python's `return None`, or
the `ValueError` that `max` raises on an empty sequence. -/
inductive GBAResult (α : Type) where
  | action : α → GBAResult α
  | noneResult : GBAResult α
  | valueError : GBAResult α
  deriving DecidableEq

/-- Truthiness of the object `filter(...)` returns in Python: a filter object
is truthy regardless of whether it would yield any element. -/
def filterObjectIsTruthy : Bool := true

/-- Embedding of `get_best_action(root_node)`.  The test
`if not valid_child_nodes` asks for the falsiness of a filter object, which
never holds, so the `return None` branch is dead and an empty candidate list
reaches `max`, which raises `ValueError`.  The arena is threaded through
unchanged (the function only reads). -/
def get_best_action (t : Arena α) (root_node : Nat) : Arena α × GBAResult α :=
  let valid_child_nodes := validChildren t root_node
  if filterObjectIsTruthy = false then (t, GBAResult.noneResult)
  else
    match pyMax winRate valid_child_nodes with
    | some q => (t, GBAResult.action q.1)
    | none => (t, GBAResult.valueError)

/-- One iteration of the loop in `think`: traverse from the root (index 0)
with the iteration's fresh copy of the current state, expand the reached leaf,
roll out to a terminal state, score it for the bot and backpropagate from the
node `expand_leaf` returned.  The `none` branch of `is_win` is the propagated
`AssertionError`; it is unreachable because the rollout ends on a terminal
state. -/
noncomputable def thinkIter [DecidableEq α] (b : Board σ α) (pick : σ → Nat)
    (current_state : σ) (bot_identity : Nat) (t : Arena α) : Arena α :=
  let r1 := traverse_nodes b t 0 current_state bot_identity
  let r2 := expand_leaf b r1.1 r1.2.1 r1.2.2
  let s3 := rollout b pick r2.2.2
  match is_win b s3 bot_identity with
  | some won => backpropagate r2.1 r2.2.1 won
  | none => r2.1

/-- The tree-building loop of `think(board, current_state)`: a fresh root with
the current state's legal actions as untried actions, then `num_nodes`
iterations.  `rng k` is the random source used by iteration `k`'s rollout. -/
noncomputable def thinkTree [DecidableEq α] (b : Board σ α)
    (rng : Nat → σ → Nat) (current_state : σ) : Arena α :=
  let bot_identity := b.current_player current_state
  let root : Arena α :=
    [{ visits := 0, wins := 0, parent := none, parent_action := none,
       untried_actions := b.legal_actions current_state, child_nodes := [] }]
  (List.range num_nodes).foldl
    (fun t k => thinkIter b (rng k) current_state bot_identity t) root

/-- `think` returns `get_best_action(root_node)` on the built tree (the
`print` is observability only). -/
noncomputable def think [DecidableEq α] (b : Board σ α) (rng : Nat → σ → Nat)
    (current_state : σ) : GBAResult α :=
  (get_best_action (thinkTree b rng current_state) 0).2

/-- The indices backpropagation walks: the node itself, then its ancestors up
to the node without a parent.  The `p < i` guard mirrors `backpropagate`. -/
def pathToRoot (t : Arena α) (i : Nat) : List Nat :=
  match (getNode t i).parent with
  | none => [i]
  | some p => if hp : p < i then i :: pathToRoot t p else [i]
termination_by i

/-- A node's parent reference, when present, points strictly below the node's
own index. -/
def parentOk (j : Nat) (n : MCTSNode α) : Bool :=
  match n.parent with
  | none => true
  | some p => decide (p < j)

/-- Exactly the node at index 0 has no parent. -/
def rootOk (j : Nat) (n : MCTSNode α) : Bool :=
  n.parent.isNone == decide (j = 0)

/-- Every registered child index lies strictly above the node and in range. -/
def childOk (t : Arena α) (j : Nat) (n : MCTSNode α) : Bool :=
  n.child_nodes.all (fun q => decide (j < q.2) && decide (q.2 < t.length))

/-- Every node's parent reference points strictly below its own index. -/
def parentsBelow (t : Arena α) : Bool :=
  (List.range t.length).all (fun j => parentOk j (getNode t j))

/-- Exactly the node at index 0 lacks a parent. -/
def uniqueRoot (t : Arena α) : Bool :=
  (List.range t.length).all (fun j => rootOk j (getNode t j))

/-- Every registered child index lies strictly above its node and in range. -/
def childrenBounded (t : Arena α) : Bool :=
  (List.range t.length).all (fun j => childOk t j (getNode t j))

/-- Well-formedness of a search arena: nonempty, parents point strictly down,
index 0 is the unique root, children point strictly up and in range.  This
holds for the fresh one-node root arena and is preserved by every phase of the
search. -/
def wfArena (t : Arena α) : Bool :=
  decide (0 < t.length) && parentsBelow t && uniqueRoot t && childrenBounded t

/-- One step of play allowed by the rules: the state is not terminal and the
successor arises from one of its legal actions. -/
def LegalStep (b : Board σ α) (s s' : σ) : Prop :=
  b.is_ended s = false ∧ ∃ a ∈ b.legal_actions s, s' = b.next_state s a

/-- Reachability by finitely many legal steps. -/
def ReachesByLegal (b : Board σ α) : σ → σ → Prop :=
  Relation.ReflTransGen (LegalStep b)


/-! ### Concrete fixtures used by witnesses and counterexamples -/

/-- A concrete finite game: count down from a `Fin 4` state to 0; one legal
action while positive; player 1 wins every finished game. -/
def countdown : Board (Fin 4) Unit where
  current_player s := s.val % 2 + 1
  legal_actions s := if s.val = 0 then [] else [()]
  next_state s _ := ⟨s.val - 1, lt_of_le_of_lt (Nat.sub_le _ _) s.isLt⟩
  is_ended s := decide (s.val = 0)
  points_values s :=
    if s.val = 0 then some (fun p => if p = 1 then 1 else 0) else none
  rank s := s.val
  legal_empty_iff := by decide
  points_some_iff := by decide
  rank_lt := by decide

/-- A one-ply game over `Bool` states with two legal actions at the start
state `true` and an immediate end at `false`. -/
def boolBoard : Board Bool Nat where
  current_player _ := 1
  legal_actions s := if s then [1, 2] else []
  next_state _ _ := false
  is_ended s := !s
  points_values s := if s then none else some (fun _ => 1)
  rank s := if s then 1 else 0
  legal_empty_iff := by decide
  points_some_iff := by decide
  rank_lt := by
    intro s a hs ha
    cases s
    · simp at hs
    · simp

/-- A three-node chain root(0) → child(1) → grandchild(2). -/
def chain3 : Arena Nat :=
  [{ visits := 2, wins := 1, parent := none, parent_action := none,
     untried_actions := [], child_nodes := [(5, 1)] },
   { visits := 1, wins := 1, parent := some 0, parent_action := some 5,
     untried_actions := [], child_nodes := [(7, 2)] },
   { visits := 0, wins := 0, parent := some 1, parent_action := some 7,
     untried_actions := [3], child_nodes := [] }]

/-- A root for a terminal state: no legal actions, hence no children. -/
def terminalRootArena : Arena Nat :=
  [{ visits := 0, wins := 0, parent := none, parent_action := none,
     untried_actions := [], child_nodes := [] }]

/-- A fresh root with two untried actions, about to be expanded. -/
def expandDemoArena : Arena Nat :=
  [{ visits := 0, wins := 0, parent := none, parent_action := none,
     untried_actions := [1, 2], child_nodes := [] }]

/-- A root with three children: ratios 1/2 and 1/1 and an unvisited one. -/
def bestActionArena : Arena Nat :=
  [{ visits := 3, wins := 2, parent := none, parent_action := none,
     untried_actions := [], child_nodes := [(10, 1), (20, 2), (30, 3)] },
   { visits := 2, wins := 1, parent := some 0, parent_action := some 10,
     untried_actions := [], child_nodes := [] },
   { visits := 1, wins := 1, parent := some 0, parent_action := some 20,
     untried_actions := [], child_nodes := [] },
   { visits := 0, wins := 0, parent := some 0, parent_action := some 30,
     untried_actions := [], child_nodes := [] }]

/-- A parent with one visited and one unvisited child, for the UCB claim. -/
def ucbArena : Arena Nat :=
  [{ visits := 2, wins := 1, parent := none, parent_action := none,
     untried_actions := [], child_nodes := [(1, 1), (2, 2)] },
   { visits := 0, wins := 0, parent := some 0, parent_action := some 1,
     untried_actions := [], child_nodes := [] },
   { visits := 1, wins := 1, parent := some 0, parent_action := some 2,
     untried_actions := [], child_nodes := [] }]

/-- A node carrying both expanded and untried actions, mid-partition. -/
def partitionArena : Arena Nat :=
  [{ visits := 1, wins := 0, parent := none, parent_action := none,
     untried_actions := [1, 2], child_nodes := [] }]

/-! ### Arena access lemmas -/

theorem length_setNode (t : Arena α) (i : Nat) (n : MCTSNode α) :
    (setNode t i n).length = t.length :=
  List.length_set t i n

theorem getNode_setNode_self {t : Arena α} {i : Nat} (n : MCTSNode α)
    (h : i < t.length) : getNode (setNode t i n) i = n := by
  simp [getNode, setNode, List.getElem?_set_eq_of_lt n h]

theorem getNode_setNode_ne {t : Arena α} {i j : Nat} (n : MCTSNode α)
    (h : i ≠ j) : getNode (setNode t i n) j = getNode t j := by
  simp [getNode, setNode, List.getElem?_set_ne h]

theorem getNode_append_left {t l2 : Arena α} {j : Nat} (h : j < t.length) :
    getNode (t ++ l2) j = getNode t j := by
  simp [getNode, List.getElem?_append_left h]

theorem getNode_append_right (t : Arena α) (c : MCTSNode α) :
    getNode (t ++ [c]) t.length = c := by
  simp [getNode, List.getElem?_concat_length]

theorem getNode_of_le {t : Arena α} {j : Nat} (h : t.length ≤ j) :
    getNode t j = blankNode α := by
  simp [getNode, List.getElem?_eq_none_iff.mpr h]

/-! ### Python `max` characterisation: the first element attaining the
maximum key is returned. -/

theorem pyMaxAux_spec {β γ : Type u} [LinearOrder γ] (f : β → γ) :
    ∀ (l : List β) (acc : β),
      (l.foldl (fun best y => if f best < f y then y else best) acc = acc ∧
        ∀ y ∈ l, f y ≤ f acc) ∨
      (∃ r l1 l2,
        l.foldl (fun best y => if f best < f y then y else best) acc = r ∧
        l = l1 ++ r :: l2 ∧ f acc < f r ∧ (∀ y ∈ l, f y ≤ f r) ∧
        ∀ y ∈ l1, f y < f r) := by
  intro l
  induction l with
  | nil => exact fun acc => Or.inl ⟨rfl, by simp⟩
  | cons y ys ih =>
    intro acc
    by_cases hc : f acc < f y
    · rcases ih y with ⟨he, hall⟩ | ⟨r, l1, l2, hf, hsplit, hlt, hall, hl1⟩
      · refine Or.inr ⟨y, [], ys, ?_, by simp, hc, ?_, by simp⟩
        · simpa [hc] using he
        · intro z hz
          rcases List.mem_cons.mp hz with rfl | hz
          · exact le_refl _
          · exact hall z hz
      · refine Or.inr ⟨r, y :: l1, l2, ?_, by simp [hsplit], hc.trans hlt, ?_, ?_⟩
        · simpa [hc] using hf
        · intro z hz
          rcases List.mem_cons.mp hz with rfl | hz
          · exact le_of_lt hlt
          · exact hall z hz
        · intro z hz
          rcases List.mem_cons.mp hz with rfl | hz
          · exact hlt
          · exact hl1 z hz
    · rcases ih acc with ⟨he, hall⟩ | ⟨r, l1, l2, hf, hsplit, hlt, hall, hl1⟩
      · refine Or.inl ⟨by simpa [hc] using he, ?_⟩
        intro z hz
        rcases List.mem_cons.mp hz with rfl | hz
        · exact not_lt.mp hc
        · exact hall z hz
      · refine Or.inr ⟨r, y :: l1, l2, by simpa [hc] using hf,
          by simp [hsplit], hlt, ?_, ?_⟩
        · intro z hz
          rcases List.mem_cons.mp hz with rfl | hz
          · exact (not_lt.mp hc).trans (le_of_lt hlt)
          · exact hall z hz
        · intro z hz
          rcases List.mem_cons.mp hz with rfl | hz
          · exact lt_of_le_of_lt (not_lt.mp hc) hlt
          · exact hl1 z hz

theorem pyMax_spec {β γ : Type u} [LinearOrder γ] {f : β → γ} {l : List β}
    {r : β} (h : pyMax f l = some r) :
    (∀ y ∈ l, f y ≤ f r) ∧
    ∃ l1 l2, l = l1 ++ r :: l2 ∧ ∀ y ∈ l1, f y < f r := by
  match l with
  | [] => simp [pyMax] at h
  | x :: xs =>
    simp only [pyMax, Option.some.injEq] at h
    rcases pyMaxAux_spec f xs x with ⟨he, hall⟩ | ⟨r', l1, l2, hf, hsplit, hlt, hall, hl1⟩
    · have hrx : r = x := by rw [← h, he]
      subst hrx
      refine ⟨?_, [], xs, rfl, by simp⟩
      intro z hz
      rcases List.mem_cons.mp hz with rfl | hz
      · exact le_refl _
      · exact hall z hz
    · have hrr : r = r' := by rw [← h, hf]
      subst hrr
      refine ⟨?_, x :: l1, l2, by simp [hsplit], ?_⟩
      · intro z hz
        rcases List.mem_cons.mp hz with rfl | hz
        · exact le_of_lt hlt
        · exact hall z hz
      · intro z hz
        rcases List.mem_cons.mp hz with rfl | hz
        · exact hlt
        · exact hl1 z hz

theorem pyMax_eq_none {β γ : Type u} [LinearOrder γ] {f : β → γ} {l : List β} :
    pyMax f l = none ↔ l = [] := by
  cases l <;> simp [pyMax]

theorem pyMax_mem {β γ : Type u} [LinearOrder γ] {f : β → γ} {l : List β}
    {r : β} (h : pyMax f l = some r) : r ∈ l := by
  rcases (pyMax_spec h).2 with ⟨l1, l2, hsplit, -⟩
  rw [hsplit]
  exact List.mem_append.mpr (Or.inr (List.mem_cons_self _ _))

/-! ### Rollout lemmas -/

theorem rollout_is_ended (b : Board σ α) (pick : σ → Nat) (s : σ) :
    b.is_ended (rollout b pick s) = true := by
  generalize hn : b.rank s = n
  induction n using Nat.strong_induction_on generalizing s with
  | _ n ih =>
    rw [rollout.eq_def]
    split
    · assumption
    · next h =>
      have hne : b.is_ended s = false := Bool.eq_false_iff.mpr h
      subst hn
      exact ih _ (b.rank_lt s _ hne (List.get_mem _ _ _)) _ rfl

theorem rollout_of_ended {b : Board σ α} {pick : σ → Nat} {s : σ}
    (h : b.is_ended s = true) : rollout b pick s = s := by
  rw [rollout.eq_def]
  simp [h]

theorem rollout_reaches (b : Board σ α) (pick : σ → Nat) (s : σ) :
    ReachesByLegal b s (rollout b pick s) := by
  generalize hn : b.rank s = n
  induction n using Nat.strong_induction_on generalizing s with
  | _ n ih =>
    rw [rollout.eq_def]
    split
    · exact Relation.ReflTransGen.refl
    · next h =>
      have hne : b.is_ended s = false := Bool.eq_false_iff.mpr h
      subst hn
      refine Relation.ReflTransGen.head ⟨hne, _, List.get_mem _ _ _, rfl⟩
        (ih _ (b.rank_lt s _ hne (List.get_mem _ _ _)) _ rfl)

/-! ### Backpropagation and path lemmas -/

theorem getNode_setNode (t : Arena α) (i : Nat) (n : MCTSNode α) (j : Nat) :
    getNode (setNode t i n) j =
      if j = i ∧ i < t.length then n else getNode t j := by
  by_cases hj : j = i
  · subst hj
    by_cases hlen : j < t.length
    · simp [hlen, getNode_setNode_self n hlen]
    · have : t.length ≤ j := Nat.le_of_not_lt hlen
      simp [hlen, setNode, List.set_eq_of_length_le this]
  · simp [hj, getNode_setNode_ne n (fun he => hj he.symm)]

theorem backpropagate_parent_none {t : Arena α} {i : Nat} {won : Bool}
    (h : (getNode t i).parent = none) :
    backpropagate t i won = setNode t i (bumpNode (getNode t i) won) := by
  rw [backpropagate.eq_def, h]

theorem backpropagate_parent_some {t : Arena α} {i p : Nat} {won : Bool}
    (h : (getNode t i).parent = some p) (hp : p < i) :
    backpropagate t i won =
      backpropagate (setNode t i (bumpNode (getNode t i) won)) p won := by
  rw [backpropagate.eq_def, h]
  simp [hp]

theorem pathToRoot_parent_none {t : Arena α} {i : Nat}
    (h : (getNode t i).parent = none) : pathToRoot t i = [i] := by
  rw [pathToRoot.eq_def, h]

theorem pathToRoot_parent_some {t : Arena α} {i p : Nat}
    (h : (getNode t i).parent = some p) (hp : p < i) :
    pathToRoot t i = i :: pathToRoot t p := by
  rw [pathToRoot.eq_def, h]
  simp [hp]

theorem length_backpropagate (t : Arena α) (i : Nat) (won : Bool) :
    (backpropagate t i won).length = t.length := by
  induction i using Nat.strong_induction_on generalizing t with
  | _ i ih =>
    rcases hpar : (getNode t i).parent with _ | p
    · rw [backpropagate_parent_none hpar, length_setNode]
    · by_cases hp : p < i
      · rw [backpropagate_parent_some hpar hp, ih p hp, length_setNode]
      · rw [backpropagate.eq_def, hpar]
        simp [hp, length_setNode]

theorem backpropagate_fields (t : Arena α) (i : Nat) (won : Bool) (j : Nat) :
    (getNode (backpropagate t i won) j).parent = (getNode t j).parent ∧
    (getNode (backpropagate t i won) j).parent_action = (getNode t j).parent_action ∧
    (getNode (backpropagate t i won) j).untried_actions = (getNode t j).untried_actions ∧
    (getNode (backpropagate t i won) j).child_nodes = (getNode t j).child_nodes := by
  induction i using Nat.strong_induction_on generalizing t with
  | _ i ih =>
    have hset : ∀ k,
        ((getNode (setNode t i (bumpNode (getNode t i) won)) k).parent =
          (getNode t k).parent) ∧
        ((getNode (setNode t i (bumpNode (getNode t i) won)) k).parent_action =
          (getNode t k).parent_action) ∧
        ((getNode (setNode t i (bumpNode (getNode t i) won)) k).untried_actions =
          (getNode t k).untried_actions) ∧
        ((getNode (setNode t i (bumpNode (getNode t i) won)) k).child_nodes =
          (getNode t k).child_nodes) := by
      intro k
      rw [getNode_setNode]
      by_cases hk : k = i ∧ i < t.length
      · simp [hk, bumpNode, hk.1]
      · simp [hk]
    rcases hpar : (getNode t i).parent with _ | p
    · rw [backpropagate_parent_none hpar]
      exact hset j
    · by_cases hp : p < i
      · rw [backpropagate_parent_some hpar hp]
        obtain ⟨h1, h2, h3, h4⟩ :=
          ih p hp (setNode t i (bumpNode (getNode t i) won))
        obtain ⟨g1, g2, g3, g4⟩ := hset j
        exact ⟨h1.trans g1, h2.trans g2, h3.trans g3, h4.trans g4⟩
      · rw [backpropagate.eq_def, hpar]
        simp only [hp, dite_false]
        exact hset j

theorem pathToRoot_congr {t t' : Arena α}
    (hpar : ∀ j, (getNode t' j).parent = (getNode t j).parent) :
    ∀ i, pathToRoot t' i = pathToRoot t i := by
  intro i
  induction i using Nat.strong_induction_on with
  | _ i ih =>
    rcases hp : (getNode t i).parent with _ | p
    · rw [pathToRoot_parent_none hp, pathToRoot_parent_none ((hpar i).trans hp)]
    · by_cases hpi : p < i
      · rw [pathToRoot_parent_some hp hpi,
          pathToRoot_parent_some ((hpar i).trans hp) hpi, ih p hpi]
      · rw [pathToRoot.eq_def, pathToRoot.eq_def, hpar i, hp]
        simp [hpi]

theorem pathToRoot_le (t : Arena α) (i : Nat) : ∀ j ∈ pathToRoot t i, j ≤ i := by
  induction i using Nat.strong_induction_on with
  | _ i ih =>
    rcases hp : (getNode t i).parent with _ | p
    · rw [pathToRoot_parent_none hp]
      simp
    · by_cases hpi : p < i
      · rw [pathToRoot_parent_some hp hpi]
        intro j hj
        rcases List.mem_cons.mp hj with rfl | hj
        · exact le_refl _
        · exact le_of_lt (lt_of_le_of_lt (ih p hpi j hj) hpi)
      · rw [pathToRoot.eq_def, hp]
        simp [hpi]

theorem zero_mem_pathToRoot {t : Arena α}
    (hpar : ∀ j, j < t.length → ∀ p, (getNode t j).parent = some p → p < j)
    (hroot : ∀ j, j < t.length → ((getNode t j).parent = none ↔ j = 0)) :
    ∀ i, i < t.length → 0 ∈ pathToRoot t i := by
  intro i
  induction i using Nat.strong_induction_on with
  | _ i ih =>
    intro hi
    rcases hp : (getNode t i).parent with _ | p
    · have : i = 0 := (hroot i hi).mp hp
      subst this
      rw [pathToRoot_parent_none hp]
      simp
    · have hpi : p < i := hpar i hi p hp
      rw [pathToRoot_parent_some hp hpi]
      exact List.mem_cons.mpr (Or.inr (ih p hpi (lt_trans hpi hi)))

theorem backpropagate_visits_wins {t : Arena α}
    (hpar : ∀ j, j < t.length → ∀ p, (getNode t j).parent = some p → p < j)
    {i : Nat} (hi : i < t.length) (won : Bool) (j : Nat) :
    (getNode (backpropagate t i won) j).visits =
      (getNode t j).visits + (if j ∈ pathToRoot t i then 1 else 0) ∧
    (getNode (backpropagate t i won) j).wins =
      (getNode t j).wins + (if j ∈ pathToRoot t i ∧ won = true then 1 else 0) := by
  induction i using Nat.strong_induction_on generalizing t with
  | _ i ih =>
    rcases hp : (getNode t i).parent with _ | p
    · rw [backpropagate_parent_none hp, pathToRoot_parent_none hp, getNode_setNode]
      by_cases hj : j = i
      · subst hj
        simp only [hi, and_true, if_pos rfl, List.mem_singleton, bumpNode]
        cases won <;> simp
      · have : ¬(j = i ∧ i < t.length) := fun hc => hj hc.1
        simp only [this, if_neg, List.mem_singleton, hj]
        simp [hj]
    · have hpi : p < i := hpar i hi p hp
      rw [backpropagate_parent_some hp hpi, pathToRoot_parent_some hp hpi]
      set t' := setNode t i (bumpNode (getNode t i) won) with ht'
      have hlen' : t'.length = t.length := length_setNode t i _
      have hparents : ∀ k, (getNode t' k).parent = (getNode t k).parent := by
        intro k
        rw [ht', getNode_setNode]
        by_cases hk : k = i ∧ i < t.length
        · simp [hk, bumpNode, hk.1]
        · simp [hk]
      have hpar' : ∀ k, k < t'.length → ∀ q, (getNode t' k).parent = some q → q < k := by
        intro k hk q hq
        exact hpar k (hlen' ▸ hk) q ((hparents k).symm.trans hq)
      have hpi' : p < t'.length := hlen' ▸ lt_trans hpi hi
      obtain ⟨hv, hw⟩ := ih p hpi hpar' hpi'
      have hpath : pathToRoot t' p = pathToRoot t p := pathToRoot_congr hparents p
      have hnotmem : i ∉ pathToRoot t p := fun hc =>
        absurd (pathToRoot_le t p i hc) (Nat.not_le.mpr hpi)
      have hv' : (getNode t' j).visits =
          (getNode t j).visits + (if j = i then 1 else 0) := by
        rw [ht', getNode_setNode]
        by_cases hj : j = i
        · simp [hj, hi, bumpNode]
        · simp [hj]
      have hw' : (getNode t' j).wins =
          (getNode t j).wins + (if j = i ∧ won = true then 1 else 0) := by
        rw [ht', getNode_setNode]
        by_cases hj : j = i
        · subst hj
          simp only [hi, and_true, if_pos rfl, bumpNode]
          cases won <;> simp
        · have : ¬(j = i ∧ won = true) := fun hc => hj hc.1
          simp [hj, this]
      constructor
      · rw [hv, hpath, hv']
        by_cases hj : j = i
        · have hnm : j ∉ pathToRoot t p := by
            rw [hj]
            exact hnotmem
          simp [hj, hnm, hnotmem]
        · by_cases hm : j ∈ pathToRoot t p <;> simp [hj, hm]
      · rw [hw, hpath, hw']
        by_cases hj : j = i
        · have hnm : j ∉ pathToRoot t p := by
            rw [hj]
            exact hnotmem
          cases won <;> simp [hj, hnm, hnotmem]
        · by_cases hm : j ∈ pathToRoot t p <;> cases won <;> simp [hj, hm]

/-! ### Well-formedness bridge lemmas -/

theorem parentOk_iff {j : Nat} {n : MCTSNode α} :
    parentOk j n = true ↔ ∀ p, n.parent = some p → p < j := by
  unfold parentOk
  rcases n.parent with _ | p <;> simp

theorem rootOk_iff {j : Nat} {n : MCTSNode α} :
    rootOk j n = true ↔ (n.parent = none ↔ j = 0) := by
  unfold rootOk
  rcases n.parent with _ | p <;> simp [Option.isNone]

theorem childOk_iff {t : Arena α} {j : Nat} {n : MCTSNode α} :
    childOk t j n = true ↔ ∀ q ∈ n.child_nodes, j < q.2 ∧ q.2 < t.length := by
  unfold childOk
  simp [List.all_eq_true]

theorem parentsBelow_iff (t : Arena α) :
    parentsBelow t = true ↔
      ∀ j, j < t.length → ∀ p, (getNode t j).parent = some p → p < j := by
  unfold parentsBelow
  simp only [List.all_eq_true, List.mem_range]
  exact forall_congr' fun j => forall_congr' fun hj => parentOk_iff

theorem uniqueRoot_iff (t : Arena α) :
    uniqueRoot t = true ↔
      ∀ j, j < t.length → ((getNode t j).parent = none ↔ j = 0) := by
  unfold uniqueRoot
  simp only [List.all_eq_true, List.mem_range]
  exact forall_congr' fun j => forall_congr' fun hj => rootOk_iff

theorem childrenBounded_iff (t : Arena α) :
    childrenBounded t = true ↔
      ∀ j, j < t.length → ∀ q ∈ (getNode t j).child_nodes,
        j < q.2 ∧ q.2 < t.length := by
  unfold childrenBounded
  simp only [List.all_eq_true, List.mem_range]
  exact forall_congr' fun j => forall_congr' fun hj => childOk_iff

theorem wfArena_iff (t : Arena α) :
    wfArena t = true ↔
      0 < t.length ∧ parentsBelow t = true ∧ uniqueRoot t = true ∧
        childrenBounded t = true := by
  unfold wfArena
  simp [Bool.and_eq_true, and_assoc]

/-! ### Traversal lemmas -/

theorem traverse_nodes_arena (b : Board σ α) (t : Arena α) (i : Nat) (s : σ)
    (bot_identity : Nat) : (traverse_nodes b t i s bot_identity).1 = t := by
  generalize hm : t.length - i = m
  induction m using Nat.strong_induction_on generalizing i s with
  | _ m ih =>
    rw [traverse_nodes.eq_def]
    simp only []
    split
    · split
      · next j hj =>
        split
        · next h =>
          split
          · exact ih (t.length - j) (by omega) j _ rfl
          · rfl
        · rfl
      · rfl
    · rfl

theorem traverse_nodes_index_lt (b : Board σ α) {t : Arena α} {i : Nat}
    (s : σ) (bot_identity : Nat) (hi : i < t.length) :
    (traverse_nodes b t i s bot_identity).2.1 < t.length := by
  generalize hm : t.length - i = m
  induction m using Nat.strong_induction_on generalizing i s with
  | _ m ih =>
    rw [traverse_nodes.eq_def]
    simp only []
    split
    · split
      · next j hj =>
        split
        · next h =>
          split
          · exact ih (t.length - j) (by omega) _ h.2 rfl
          · exact h.2
        · exact hi
      · exact hi
    · exact hi

/-! ### Expansion lemmas -/

theorem expand_leaf_nil [DecidableEq α] {b : Board σ α} {t : Arena α} {i : Nat}
    {s : σ} (h : (getNode t i).untried_actions = []) :
    expand_leaf b t i s = (t, i, s) := by
  simp [expand_leaf, h]

theorem expand_leaf_cons [DecidableEq α] {b : Board σ α} {t : Arena α} {i : Nat}
    {s : σ} {action : α} {rest : List α}
    (h : (getNode t i).untried_actions = action :: rest) :
    expand_leaf b t i s =
      (setNode t i
          { getNode t i with
            untried_actions := rest,
            child_nodes := dictInsert (getNode t i).child_nodes action t.length } ++
        [{ visits := 0, wins := 0, parent := some i, parent_action := some action,
           untried_actions := b.legal_actions (b.next_state s action),
           child_nodes := [] }],
       i, b.next_state s action) := by
  simp [expand_leaf, h]

theorem expand_leaf_ret [DecidableEq α] (b : Board σ α) (t : Arena α) (i : Nat)
    (s : σ) : (expand_leaf b t i s).2.1 = i := by
  rcases h : (getNode t i).untried_actions with _ | ⟨action, rest⟩
  · rw [expand_leaf_nil h]
  · rw [expand_leaf_cons h]

theorem length_expand_leaf [DecidableEq α] (b : Board σ α) (t : Arena α)
    (i : Nat) (s : σ) : t.length ≤ (expand_leaf b t i s).1.length := by
  rcases h : (getNode t i).untried_actions with _ | ⟨action, rest⟩
  · rw [expand_leaf_nil h]
  · rw [expand_leaf_cons h]
    simp [length_setNode]

theorem expand_leaf_stats [DecidableEq α] (b : Board σ α) (t : Arena α)
    (i : Nat) (s : σ) {j : Nat} (hj : j < t.length) :
    (getNode (expand_leaf b t i s).1 j).visits = (getNode t j).visits ∧
    (getNode (expand_leaf b t i s).1 j).wins = (getNode t j).wins := by
  rcases h : (getNode t i).untried_actions with _ | ⟨action, rest⟩
  · rw [expand_leaf_nil h]
    exact ⟨rfl, rfl⟩
  · rw [expand_leaf_cons h]
    have hj' : j < (setNode t i
        { getNode t i with
          untried_actions := rest,
          child_nodes := dictInsert (getNode t i).child_nodes action t.length }).length := by
      rw [length_setNode]
      exact hj
    rw [getNode_append_left hj', getNode_setNode]
    by_cases hji : j = i ∧ i < t.length
    · simp [hji]
    · simp [hji]

theorem mem_dictInsert [DecidableEq α] {d : List (α × Nat)} {k : α} {v : Nat}
    {q : α × Nat} (hq : q ∈ dictInsert d k v) : q ∈ d ∨ q = (k, v) := by
  unfold dictInsert at hq
  by_cases hc : d.any (fun r => r.1 = k)
  · rw [if_pos hc] at hq
    obtain ⟨r, hr, he⟩ := List.mem_map.mp hq
    by_cases hrk : r.1 = k
    · right
      rw [← he]
      simp [hrk]
    · left
      rw [← he]
      simpa [hrk] using hr
  · rw [if_neg hc] at hq
    rcases List.mem_append.mp hq with hq | hq
    · exact Or.inl hq
    · exact Or.inr (List.mem_singleton.mp hq)

theorem expand_leaf_wf [DecidableEq α] (b : Board σ α) {t : Arena α} {i : Nat}
    (s : σ) (hw : wfArena t = true) (hi : i < t.length) :
    wfArena (expand_leaf b t i s).1 = true := by
  obtain ⟨hpos, hpar, hroot, hchild⟩ := (wfArena_iff t).mp hw
  rw [parentsBelow_iff] at hpar
  rw [uniqueRoot_iff] at hroot
  rw [childrenBounded_iff] at hchild
  rcases h : (getNode t i).untried_actions with _ | ⟨action, rest⟩
  · rw [expand_leaf_nil h]
    exact hw
  · rw [expand_leaf_cons h]
    set n' : MCTSNode α :=
      { getNode t i with
        untried_actions := rest,
        child_nodes := dictInsert (getNode t i).child_nodes action t.length } with hn'
    set c : MCTSNode α :=
      { visits := 0, wins := 0, parent := some i, parent_action := some action,
        untried_actions := b.legal_actions (b.next_state s action),
        child_nodes := [] } with hc
    set t2 : Arena α := setNode t i n' ++ [c] with ht2
    show wfArena t2 = true
    have hlen2 : t2.length = t.length + 1 := by
      rw [ht2]
      simp [length_setNode]
    have hget : ∀ j, j < t.length →
        getNode t2 j = if j = i then n' else getNode t j := by
      intro j hjlen
      have hj' : j < (setNode t i n').length := by
        rw [length_setNode]
        exact hjlen
      rw [ht2, getNode_append_left hj', getNode_setNode]
      by_cases hji : j = i
      · simp [hji, hi]
      · simp [hji]
    have hgetlast : getNode t2 t.length = c := by
      have : getNode (setNode t i n' ++ [c]) (setNode t i n').length = c :=
        getNode_append_right _ c
      rw [length_setNode] at this
      rw [ht2]
      exact this
    rw [wfArena_iff, parentsBelow_iff, uniqueRoot_iff, childrenBounded_iff]
    refine ⟨by omega, ?_, ?_, ?_⟩
    · intro j hj p hp
      rw [hlen2] at hj
      rcases Nat.lt_or_ge j t.length with hjt | hjt
      · rw [hget j hjt] at hp
        by_cases hji : j = i
        · rw [if_pos hji] at hp
          apply hpar j hjt p
          rw [hji]
          exact hp
        · rw [if_neg hji] at hp
          exact hpar j hjt p hp
      · have hjeq : j = t.length := by omega
        rw [hjeq, hgetlast] at hp
        rw [hc] at hp
        simp at hp
        omega
    · intro j hj
      rw [hlen2] at hj
      rcases Nat.lt_or_ge j t.length with hjt | hjt
      · rw [hget j hjt]
        by_cases hji : j = i
        · rw [if_pos hji, hn']
          have := hroot j hjt
          rw [hji] at this ⊢
          exact this
        · rw [if_neg hji]
          exact hroot j hjt
      · have hjeq : j = t.length := by omega
        rw [hjeq, hgetlast, hc]
        simp
        exact List.length_pos.mp hpos
    · intro j hj q hq
      rw [hlen2] at hj
      rcases Nat.lt_or_ge j t.length with hjt | hjt
      · rw [hget j hjt] at hq
        by_cases hji : j = i
        · rw [if_pos hji, hn'] at hq
          simp only [] at hq
          rcases mem_dictInsert hq with hq | hq
          · have := hchild j hjt q (by rw [hji]; exact hq)
            omega
          · rw [hq]
            simp
            omega
        · rw [if_neg hji] at hq
          have := hchild j hjt q hq
          omega
      · have hjeq : j = t.length := by omega
        rw [hjeq, hgetlast, hc] at hq
        simp at hq

/-! ### Backpropagation preserves well-formedness; one iteration adds one
root visit. -/

theorem backpropagate_wf {t : Arena α} (i : Nat) (won : Bool)
    (hw : wfArena t = true) : wfArena (backpropagate t i won) = true := by
  obtain ⟨hpos, hpar, hroot, hchild⟩ := (wfArena_iff t).mp hw
  rw [parentsBelow_iff] at hpar
  rw [uniqueRoot_iff] at hroot
  rw [childrenBounded_iff] at hchild
  have hlen : (backpropagate t i won).length = t.length :=
    length_backpropagate t i won
  have hf := fun j => backpropagate_fields t i won j
  rw [wfArena_iff, parentsBelow_iff, uniqueRoot_iff, childrenBounded_iff]
  refine ⟨by omega, ?_, ?_, ?_⟩
  · intro j hj p hp
    refine hpar j (by omega) p ?_
    rw [← (hf j).1]
    exact hp
  · intro j hj
    rw [(hf j).1]
    exact hroot j (by omega)
  · intro j hj q hq
    rw [(hf j).2.2.2] at hq
    have := hchild j (by omega) q hq
    omega

theorem backpropagate_root_visits {t : Arena α} {i : Nat} (won : Bool)
    (hw : wfArena t = true) (hi : i < t.length) :
    (getNode (backpropagate t i won) 0).visits = (getNode t 0).visits + 1 := by
  obtain ⟨hpos, hpar, hroot, hchild⟩ := (wfArena_iff t).mp hw
  rw [parentsBelow_iff] at hpar
  rw [uniqueRoot_iff] at hroot
  have h0 : 0 ∈ pathToRoot t i := zero_mem_pathToRoot hpar hroot i hi
  have hv := (backpropagate_visits_wins hpar hi won 0).1
  rw [hv, if_pos h0]

theorem thinkIter_visits [DecidableEq α] (b : Board σ α) (pick : σ → Nat)
    (s0 : σ) (bot_identity : Nat) {t : Arena α} (hw : wfArena t = true) :
    wfArena (thinkIter b pick s0 bot_identity t) = true ∧
    (getNode (thinkIter b pick s0 bot_identity t) 0).visits =
      (getNode t 0).visits + 1 := by
  have hpos : 0 < t.length := ((wfArena_iff t).mp hw).1
  have harena : (traverse_nodes b t 0 s0 bot_identity).1 = t :=
    traverse_nodes_arena b t 0 s0 bot_identity
  set leaf := (traverse_nodes b t 0 s0 bot_identity).2.1 with hleafdef
  set s1 := (traverse_nodes b t 0 s0 bot_identity).2.2 with hs1def
  have hleaf : leaf < t.length := traverse_nodes_index_lt b s0 bot_identity hpos
  set e := expand_leaf b t leaf s1 with hedef
  have hiter : thinkIter b pick s0 bot_identity t =
      match is_win b (rollout b pick e.2.2) bot_identity with
      | some won => backpropagate e.1 e.2.1 won
      | none => e.1 := by
    unfold thinkIter
    dsimp only
    rw [harena]
  have hend : b.is_ended (rollout b pick e.2.2) = true :=
    rollout_is_ended b pick e.2.2
  have hsome : (b.points_values (rollout b pick e.2.2)).isSome = true := by
    rw [b.points_some_iff]
    exact hend
  obtain ⟨f, hf⟩ := Option.isSome_iff_exists.mp hsome
  have hwin : is_win b (rollout b pick e.2.2) bot_identity =
      some (decide (f bot_identity = 1)) := by
    unfold is_win
    rw [hf]
  rw [hiter, hwin]
  show wfArena (backpropagate e.1 e.2.1 (decide (f bot_identity = 1))) = true ∧
    (getNode (backpropagate e.1 e.2.1 (decide (f bot_identity = 1))) 0).visits =
      (getNode t 0).visits + 1
  have hwf_e : wfArena e.1 = true := expand_leaf_wf b s1 hw hleaf
  have hret : e.2.1 = leaf := expand_leaf_ret b t leaf s1
  have hlen_e : t.length ≤ e.1.length := length_expand_leaf b t leaf s1
  have hleaf_e : e.2.1 < e.1.length := by
    rw [hret]
    omega
  refine ⟨backpropagate_wf _ _ hwf_e, ?_⟩
  rw [backpropagate_root_visits _ hwf_e hleaf_e]
  rw [(expand_leaf_stats b t leaf s1 hpos).1]

theorem thinkTree_foldl [DecidableEq α] (b : Board σ α) (rng : Nat → σ → Nat)
    (s0 : σ) (bot_identity : Nat) :
    ∀ (l : List Nat) (t : Arena α), wfArena t = true →
      wfArena (l.foldl (fun t k => thinkIter b (rng k) s0 bot_identity t) t) = true ∧
      (getNode (l.foldl (fun t k => thinkIter b (rng k) s0 bot_identity t) t) 0).visits =
        (getNode t 0).visits + l.length := by
  intro l
  induction l with
  | nil =>
    intro t hw
    exact ⟨hw, by simp⟩
  | cons k ks ih =>
    intro t hw
    obtain ⟨hw', hv'⟩ := thinkIter_visits b (rng k) s0 bot_identity hw
    obtain ⟨hw2, hv2⟩ := ih _ hw'
    refine ⟨hw2, ?_⟩
    simp only [List.foldl_cons]
    rw [hv2, hv']
    simp only [List.length_cons]
    omega

theorem wfArena_singleton_root (l : List α) :
    wfArena ([{ visits := 0, wins := 0, parent := none, parent_action := none,
                untried_actions := l, child_nodes := [] }] : Arena α) = true := by
  rw [wfArena_iff, parentsBelow_iff, uniqueRoot_iff, childrenBounded_iff]
  refine ⟨by simp, ?_, ?_, ?_⟩
  · intro j hj p hp
    simp at hj
    subst hj
    simp [getNode] at hp
  · intro j hj
    simp at hj
    subst hj
    simp [getNode]
  · intro j hj q hq
    simp at hj
    subst hj
    simp [getNode] at hq

theorem thinkTree_root_visits [DecidableEq α] (b : Board σ α)
    (rng : Nat → σ → Nat) (s0 : σ) :
    (getNode (thinkTree b rng s0) 0).visits = num_nodes := by
  unfold thinkTree
  obtain ⟨-, hv⟩ := thinkTree_foldl b rng s0 (b.current_player s0)
    (List.range num_nodes)
    [{ visits := 0, wins := 0, parent := none, parent_action := none,
       untried_actions := b.legal_actions s0, child_nodes := [] }]
    (wfArena_singleton_root (b.legal_actions s0))
  rw [hv]
  simp [getNode]

/-! ### Remaining helper lemmas -/

theorem pathToRoot_nodup (t : Arena α) (i : Nat) : (pathToRoot t i).Nodup := by
  induction i using Nat.strong_induction_on with
  | _ i ih =>
    rcases hp : (getNode t i).parent with _ | p
    · rw [pathToRoot_parent_none hp]
      simp
    · by_cases hpi : p < i
      · rw [pathToRoot_parent_some hp hpi]
        refine List.nodup_cons.mpr ⟨?_, ih p hpi⟩
        intro hc
        have := pathToRoot_le t p i hc
        omega
      · rw [pathToRoot.eq_def, hp]
        simp [hpi]

theorem self_mem_pathToRoot (t : Arena α) (i : Nat) : i ∈ pathToRoot t i := by
  rcases hp : (getNode t i).parent with _ | p
  · rw [pathToRoot_parent_none hp]
    simp
  · by_cases hpi : p < i
    · rw [pathToRoot_parent_some hp hpi]
      simp
    · rw [pathToRoot.eq_def, hp]
      simp [hpi]

theorem get_best_action_eq (t : Arena α) (root_node : Nat) :
    get_best_action t root_node =
      match pyMax winRate (validChildren t root_node) with
      | some q => (t, GBAResult.action q.1)
      | none => (t, GBAResult.valueError) := by
  unfold get_best_action
  simp [filterObjectIsTruthy]

theorem ucb_zero {t : Arena α} {i : Nat} (opp : Bool)
    (h : (getNode t i).visits = 0) : (ucb t i opp).2 = ⊤ := by
  unfold ucb
  simp [h]

theorem ucb_pos {t : Arena α} {i p : Nat} (opp : Bool)
    (hp : (getNode t i).parent = some p) (h : (getNode t i).visits ≠ 0) :
    (ucb t i opp).2 =
      ((((getNode t i).wins : ℝ) / ((getNode t i).visits : ℝ) +
        (if opp then
          -(explore_faction * Real.sqrt (Real.log ((getNode t p).visits : ℝ) /
              ((getNode t i).visits : ℝ)))
         else
          explore_faction * Real.sqrt (Real.log ((getNode t p).visits : ℝ) /
              ((getNode t i).visits : ℝ))) : ℝ) : EReal) := by
  unfold ucb
  simp only [h, if_false, hp]

theorem ucb_lt_top {t : Arena α} {j : Nat} (opp : Bool)
    (h : (getNode t j).visits ≠ 0) : (ucb t j opp).2 < ⊤ := by
  unfold ucb
  simp only [h, if_false]
  exact EReal.coe_lt_top _

theorem dictInsert_of_not_mem [DecidableEq α] {d : List (α × Nat)} {k : α}
    (h : k ∉ d.map Prod.fst) (v : Nat) : dictInsert d k v = d ++ [(k, v)] := by
  unfold dictInsert
  rw [if_neg]
  intro hc
  obtain ⟨q, hq, he⟩ := List.any_eq_true.mp hc
  exact h (List.mem_map.mpr ⟨q, hq, of_decide_eq_true he⟩)

/-! ### Claim theorems -/

/-- Claim C1 (code bug): on a root in which no child has positive visits —
here a root for a terminal state, with no children at all — `get_best_action`
does not report "no action": the object `filter` returns is truthy even when
empty, so the `return None` branch is dead code and `max()` raises
`ValueError` on the empty sequence instead. -/
theorem c1_get_best_action_raises_not_none :
    (get_best_action terminalRootArena 0).2 = GBAResult.valueError ∧
    (get_best_action terminalRootArena 0).2 ≠ GBAResult.noneResult := by
  decide

/-- Claim C2 (code bug): expanding the fresh root with untried actions
`[1, 2]` pops the first action (leaving `[2]` in order), advances the state,
constructs the child at the new index 1 with the legal actions of the
advanced state, and registers it under the popped action — but the node
returned is the original node (index 0), not the newly constructed child
(index 1), so `think` backpropagates from the parent leaf, contrary to the
claim and to the function's own docstring. -/
theorem c2_expand_leaf_returns_original_node :
    (expand_leaf boolBoard expandDemoArena 0 true).2.1 = 0 ∧
    (expand_leaf boolBoard expandDemoArena 0 true).2.2 = false ∧
    (expand_leaf boolBoard expandDemoArena 0 true).1.length = 2 ∧
    getNode (expand_leaf boolBoard expandDemoArena 0 true).1 1 =
      { visits := 0, wins := 0, parent := some 0, parent_action := some 1,
        untried_actions := [], child_nodes := [] } ∧
    (getNode (expand_leaf boolBoard expandDemoArena 0 true).1 0).untried_actions = [2] ∧
    (getNode (expand_leaf boolBoard expandDemoArena 0 true).1 0).child_nodes = [(1, 1)] ∧
    (expand_leaf boolBoard expandDemoArena 0 true).2.1 ≠ 1 := by
  decide

/-- Claim C3 (confirmed): whenever some child of the root has positive
visits, the returned action is that of the first child, in `child_nodes`
insertion order, whose wins/visits ratio attains the maximum over the
children with positive visits; zero-visit children are excluded beforehand. -/
theorem c3_get_best_action_first_max (t : Arena α) (root_node : Nat)
    (h : ∃ q ∈ (getNode t root_node).child_nodes, 0 < (getNode t q.2).visits) :
    ∃ q l1 l2, validChildren t root_node = l1 ++ q :: l2 ∧
      (get_best_action t root_node).2 = GBAResult.action q.1 ∧
      0 < q.2.visits ∧
      (∀ r ∈ validChildren t root_node, winRate r ≤ winRate q) ∧
      (∀ r ∈ l1, winRate r < winRate q) := by
  have hne : validChildren t root_node ≠ [] := by
    obtain ⟨q, hq, hv⟩ := h
    intro hnil
    have hmem : (q.1, getNode t q.2) ∈ validChildren t root_node := by
      unfold validChildren
      rw [List.mem_filter]
      exact ⟨List.mem_map.mpr ⟨q, hq, rfl⟩, by simpa using hv⟩
    rw [hnil] at hmem
    simp at hmem
  rcases hq : pyMax winRate (validChildren t root_node) with _ | q
  · rw [pyMax_eq_none] at hq
    exact absurd hq hne
  · obtain ⟨hall, l1, l2, hsplit, hl1⟩ := pyMax_spec hq
    refine ⟨q, l1, l2, hsplit, ?_, ?_, hall, hl1⟩
    · rw [get_best_action_eq, hq]
    · have hmem : q ∈ validChildren t root_node := pyMax_mem hq
      unfold validChildren at hmem
      exact of_decide_eq_true (List.mem_filter.mp hmem).2

/-- Witness for C3 at a concrete root whose children carry ratios 1/2 and
1/1 plus one unvisited child. -/
theorem c3_witness :
    ∃ q l1 l2, validChildren bestActionArena 0 = l1 ++ q :: l2 ∧
      (get_best_action bestActionArena 0).2 = GBAResult.action q.1 ∧
      0 < q.2.visits ∧
      (∀ r ∈ validChildren bestActionArena 0, winRate r ≤ winRate q) ∧
      (∀ r ∈ l1, winRate r < winRate q) :=
  c3_get_best_action_first_max bestActionArena 0 (by decide)

/-- Claim C4 (confirmed): for a node with a parent of at least one visit, the
UCB score is positive infinity exactly on zero visits (and then strictly
exceeds every visited node's score); on positive visits it is
wins/visits ± C·sqrt(ln(parent.visits)/visits) with the sign picked by the
opponent flag, where the exploration constant C is 2.  Python floats are
idealised as reals, `float('inf')` as `⊤ : EReal`. -/
theorem c4_ucb_spec (t : Arena α) (i p : Nat)
    (hp : (getNode t i).parent = some p) (hpv : 1 ≤ (getNode t p).visits) :
    ((getNode t i).visits = 0 →
      (∀ opp : Bool, (ucb t i opp).2 = ⊤) ∧
      (∀ j : Nat, ∀ opp opp' : Bool, 0 < (getNode t j).visits →
        (ucb t j opp').2 < (ucb t i opp).2)) ∧
    (0 < (getNode t i).visits →
      ((ucb t i false).2 =
        ((((getNode t i).wins : ℝ) / ((getNode t i).visits : ℝ) +
          explore_faction * Real.sqrt (Real.log (((getNode t p).visits : ℝ)) /
            ((getNode t i).visits : ℝ)) : ℝ) : EReal)) ∧
      ((ucb t i true).2 =
        ((((getNode t i).wins : ℝ) / ((getNode t i).visits : ℝ) -
          explore_faction * Real.sqrt (Real.log (((getNode t p).visits : ℝ)) /
            ((getNode t i).visits : ℝ)) : ℝ) : EReal)) ∧
      explore_faction = 2) := by
  constructor
  · intro h0
    refine ⟨fun opp => ucb_zero opp h0, ?_⟩
    intro j opp opp' hj
    rw [ucb_zero opp h0]
    exact ucb_lt_top opp' (Nat.pos_iff_ne_zero.mp hj)
  · intro hposv
    have hne : (getNode t i).visits ≠ 0 := Nat.pos_iff_ne_zero.mp hposv
    refine ⟨?_, ?_, rfl⟩
    · rw [ucb_pos false hp hne]
      norm_num
    · rw [ucb_pos true hp hne]
      norm_num [sub_eq_add_neg]

/-- Witness for C4 at `ucbArena`: the unvisited child scores `⊤`, strictly
above the visited sibling, whose score matches the formula. -/
theorem c4_witness :
    (ucb ucbArena 1 false).2 = ⊤ ∧
    (ucb ucbArena 2 true).2 < (ucb ucbArena 1 false).2 ∧
    (ucb ucbArena 2 false).2 =
      ((((getNode ucbArena 2).wins : ℝ) / ((getNode ucbArena 2).visits : ℝ) +
        explore_faction * Real.sqrt (Real.log (((getNode ucbArena 0).visits : ℝ)) /
          ((getNode ucbArena 2).visits : ℝ)) : ℝ) : EReal) :=
  ⟨((c4_ucb_spec ucbArena 1 0 (by decide) (by decide)).1 (by decide)).1 false,
   ((c4_ucb_spec ucbArena 1 0 (by decide) (by decide)).1 (by decide)).2 2 false true (by decide),
   ((c4_ucb_spec ucbArena 2 0 (by decide) (by decide)).2 (by decide)).1⟩

/-- Claim C5 (confirmed): backpropagation adds exactly one visit at every
node on the path from the start node up to the root (a duplicate-free path
containing the start node), adds one win on exactly those nodes when `won`
holds, never flips `won`, and leaves every other node's statistics — and all
structural fields everywhere — unchanged. -/
theorem c5_backpropagate_spec (t : Arena α) (i : Nat) (won : Bool) (j : Nat)
    (hpb : parentsBelow t = true) (hi : i < t.length) :
    ((getNode (backpropagate t i won) j).visits =
      (getNode t j).visits + (if j ∈ pathToRoot t i then 1 else 0)) ∧
    ((getNode (backpropagate t i won) j).wins =
      (getNode t j).wins + (if j ∈ pathToRoot t i ∧ won = true then 1 else 0)) ∧
    (pathToRoot t i).Nodup ∧
    i ∈ pathToRoot t i ∧
    (getNode (backpropagate t i won) j).parent = (getNode t j).parent ∧
    (getNode (backpropagate t i won) j).parent_action = (getNode t j).parent_action ∧
    (getNode (backpropagate t i won) j).untried_actions = (getNode t j).untried_actions ∧
    (getNode (backpropagate t i won) j).child_nodes = (getNode t j).child_nodes := by
  have hpar := (parentsBelow_iff t).mp hpb
  obtain ⟨hv, hw⟩ := backpropagate_visits_wins hpar hi won j
  obtain ⟨h1, h2, h3, h4⟩ := backpropagate_fields t i won j
  exact ⟨hv, hw, pathToRoot_nodup t i, self_mem_pathToRoot t i, h1, h2, h3, h4⟩

/-- Witness for C5 on the 3-deep chain with `won = true`: root, child and
grandchild each gain one visit and one win. -/
theorem c5_witness :
    ((getNode (backpropagate chain3 2 true) 0).visits =
      (getNode chain3 0).visits + (if 0 ∈ pathToRoot chain3 2 then 1 else 0)) ∧
    ((getNode (backpropagate chain3 2 true) 0).wins =
      (getNode chain3 0).wins +
        (if 0 ∈ pathToRoot chain3 2 ∧ true = true then 1 else 0)) ∧
    ((getNode (backpropagate chain3 2 true) 1).visits =
      (getNode chain3 1).visits + (if 1 ∈ pathToRoot chain3 2 then 1 else 0)) ∧
    ((getNode (backpropagate chain3 2 true) 1).wins =
      (getNode chain3 1).wins +
        (if 1 ∈ pathToRoot chain3 2 ∧ true = true then 1 else 0)) ∧
    ((getNode (backpropagate chain3 2 true) 2).visits =
      (getNode chain3 2).visits + (if 2 ∈ pathToRoot chain3 2 then 1 else 0)) ∧
    ((getNode (backpropagate chain3 2 true) 2).wins =
      (getNode chain3 2).wins +
        (if 2 ∈ pathToRoot chain3 2 ∧ true = true then 1 else 0)) :=
  ⟨(c5_backpropagate_spec chain3 2 true 0 (by decide) (by decide)).1,
   (c5_backpropagate_spec chain3 2 true 0 (by decide) (by decide)).2.1,
   (c5_backpropagate_spec chain3 2 true 1 (by decide) (by decide)).1,
   (c5_backpropagate_spec chain3 2 true 1 (by decide) (by decide)).2.1,
   (c5_backpropagate_spec chain3 2 true 2 (by decide) (by decide)).1,
   (c5_backpropagate_spec chain3 2 true 2 (by decide) (by decide)).2.1⟩

/-- Claim C6 (confirmed): after the fixed budget of `num_nodes = 100` search
iterations, the root's visit count equals exactly that budget: each iteration
performs one backpropagation pass from a real node, and the pass always
reaches the root. -/
theorem c6_think_root_visits [DecidableEq α] (b : Board σ α)
    (rng : Nat → σ → Nat) (current_state : σ) :
    (getNode (thinkTree b rng current_state) 0).visits = num_nodes ∧
    num_nodes = 100 :=
  ⟨thinkTree_root_visits b rng current_state, rfl⟩

/-- Claim C8 (confirmed): for every finite-game collaborator, rollout ends on
a terminal state, moving at each step by an action drawn from the full legal
set of the current state; an already-terminal state is returned unchanged.
The uniform draw of `random.choice` is abstracted by the index source
`pick`. -/
theorem c8_rollout_spec (b : Board σ α) (pick : σ → Nat) (s : σ) :
    b.is_ended (rollout b pick s) = true ∧
    ReachesByLegal b s (rollout b pick s) ∧
    (b.is_ended s = true → rollout b pick s = s) :=
  ⟨rollout_is_ended b pick s, rollout_reaches b pick s,
   fun h => rollout_of_ended h⟩

/-- Witness for C8 on the countdown game: a rollout from state 3 terminates,
and the terminal state 0 is returned unchanged. -/
theorem c8_witness :
    countdown.is_ended (rollout countdown (fun _ => 0) (3 : Fin 4)) = true ∧
    rollout countdown (fun _ => 0) (0 : Fin 4) = (0 : Fin 4) :=
  ⟨(c8_rollout_spec countdown (fun _ => 0) 3).1,
   (c8_rollout_spec countdown (fun _ => 0) 0).2.2 (by decide)⟩

/-- Claim C9 (confirmed): `is_win` fails with the assertion exactly when the
state is non-terminal (when `points_values` yields no mapping); on a terminal
state the assertion is unreachable and the result is whether the bot's
outcome score equals 1. -/
theorem c9_is_win_spec (b : Board σ α) (s : σ) (identity_of_bot : Nat) :
    (is_win b s identity_of_bot = none ↔ b.is_ended s = false) ∧
    (∀ f, b.points_values s = some f →
      is_win b s identity_of_bot = some (decide (f identity_of_bot = 1))) := by
  constructor
  · constructor
    · intro hn
      rcases hpv : b.points_values s with _ | f
      · have hps := b.points_some_iff s
        rw [hpv] at hps
        simpa using hps.symm
      · unfold is_win at hn
        rw [hpv] at hn
        simp at hn
    · intro hf
      have hps := b.points_some_iff s
      rw [hf] at hps
      unfold is_win
      rcases hpv : b.points_values s with _ | f
      · rfl
      · rw [hpv] at hps
        simp at hps
  · intro f hf
    unfold is_win
    rw [hf]

/-- Witness for C9 on the countdown game: the assertion fires at the
non-terminal state 2 and the terminal state 0 scores a win for player 1. -/
theorem c9_witness :
    is_win countdown (2 : Fin 4) 1 = none ∧
    is_win countdown (0 : Fin 4) 1 =
      some (decide ((fun p => if p = 1 then (1 : Int) else 0) 1 = 1)) :=
  ⟨(c9_is_win_spec countdown 2 1).1.mpr (by decide),
   (c9_is_win_spec countdown 0 1).2 (fun p => if p = 1 then (1 : Int) else 0) rfl⟩

/-- Claim C10 (confirmed): the scoring, traversal and final-selection phases
never modify the tree: the arena they thread through comes back unchanged.
(The rollout phase takes no reference to the tree at all, so there is no node
reachable from its arguments.) -/
theorem c10_read_only (b : Board σ α) (t : Arena α) (i : Nat) (s : σ)
    (bot_identity : Nat) (opp : Bool) (root_node : Nat) :
    (ucb t i opp).1 = t ∧
    (traverse_nodes b t i s bot_identity).1 = t ∧
    (get_best_action t root_node).1 = t := by
  refine ⟨?_, traverse_nodes_arena b t i s bot_identity, ?_⟩
  · unfold ucb
    by_cases h : (getNode t i).visits = 0 <;> simp [h]
  · rw [get_best_action_eq]
    rcases hq : pyMax winRate (validChildren t root_node) with _ | q <;> rfl

theorem expand_leaf_cons_getNode [DecidableEq α] (b : Board σ α) {t : Arena α}
    {i : Nat} (s : σ) {a : α} {rest : List α} (hi : i < t.length)
    (h : (getNode t i).untried_actions = a :: rest) :
    (getNode (expand_leaf b t i s).1 i).untried_actions = rest ∧
    (getNode (expand_leaf b t i s).1 i).child_nodes =
      dictInsert (getNode t i).child_nodes a t.length ∧
    (getNode (expand_leaf b t i s).1 t.length).child_nodes = [] ∧
    (getNode (expand_leaf b t i s).1 t.length).untried_actions =
      b.legal_actions (b.next_state s a) := by
  rw [expand_leaf_cons h]
  dsimp only
  set n' : MCTSNode α :=
    { getNode t i with
      untried_actions := rest,
      child_nodes := dictInsert (getNode t i).child_nodes a t.length } with hn'
  set c : MCTSNode α :=
    { visits := 0, wins := 0, parent := some i, parent_action := some a,
      untried_actions := b.legal_actions (b.next_state s a),
      child_nodes := [] } with hc
  have hilt : i < (setNode t i n').length := by
    rw [length_setNode]
    exact hi
  have hgi : getNode (setNode t i n' ++ [c]) i = n' := by
    rw [getNode_append_left hilt, getNode_setNode_self n' hi]
  have hgl : getNode (setNode t i n' ++ [c]) t.length = c := by
    have hx : getNode (setNode t i n' ++ [c]) (setNode t i n').length = c :=
      getNode_append_right _ c
    rw [length_setNode] at hx
    exact hx
  rw [hgi, hgl]
  exact ⟨rfl, rfl, rfl, rfl⟩

/-- Claim C7 (confirmed): with a duplicate-free untried list, the keys of
`child_nodes` and the entries of `untried_actions` stay disjoint and their
union stays equal to the node's construction-time legal-action set `S`:
a no-op when nothing is untried, and otherwise exactly the head action moves
from `untried_actions` to the end of the `child_nodes` keys, while the newly
appended child starts with no children and its own full legal-action list. -/
theorem c7_expand_partition [DecidableEq α] (b : Board σ α) (t : Arena α)
    (i : Nat) (s : σ) (S : Finset α)
    (hi : i < t.length)
    (hdisj : Disjoint ((getNode t i).child_nodes.map Prod.fst).toFinset
      (getNode t i).untried_actions.toFinset)
    (hunion : ((getNode t i).child_nodes.map Prod.fst).toFinset ∪
      (getNode t i).untried_actions.toFinset = S)
    (hnd : (getNode t i).untried_actions.Nodup) :
    ((getNode t i).untried_actions = [] → (expand_leaf b t i s).1 = t) ∧
    (∀ a rest, (getNode t i).untried_actions = a :: rest →
      ((getNode (expand_leaf b t i s).1 i).child_nodes.map Prod.fst =
        (getNode t i).child_nodes.map Prod.fst ++ [a]) ∧
      (getNode (expand_leaf b t i s).1 i).untried_actions = rest ∧
      Disjoint ((getNode (expand_leaf b t i s).1 i).child_nodes.map Prod.fst).toFinset
        (getNode (expand_leaf b t i s).1 i).untried_actions.toFinset ∧
      ((getNode (expand_leaf b t i s).1 i).child_nodes.map Prod.fst).toFinset ∪
        (getNode (expand_leaf b t i s).1 i).untried_actions.toFinset = S ∧
      (getNode (expand_leaf b t i s).1 t.length).child_nodes = [] ∧
      (getNode (expand_leaf b t i s).1 t.length).untried_actions =
        b.legal_actions (b.next_state s a)) := by
  constructor
  · intro h
    rw [expand_leaf_nil h]
  · intro a rest h
    have hanotK : a ∉ (getNode t i).child_nodes.map Prod.fst := by
      intro hc
      have hmem : a ∈ ((getNode t i).child_nodes.map Prod.fst).toFinset :=
        List.mem_toFinset.mpr hc
      have hmem2 : a ∈ (getNode t i).untried_actions.toFinset := by
        rw [h]
        simp
      exact (Finset.disjoint_left.mp hdisj hmem) hmem2
    obtain ⟨hu, hcn, hc1, hc2⟩ := expand_leaf_cons_getNode b s hi h
    have hkeys : (getNode (expand_leaf b t i s).1 i).child_nodes.map Prod.fst =
        (getNode t i).child_nodes.map Prod.fst ++ [a] := by
      rw [hcn, dictInsert_of_not_mem hanotK]
      simp
    have hanotrest : a ∉ rest := by
      rw [h] at hnd
      exact (List.nodup_cons.mp hnd).1
    refine ⟨hkeys, hu, ?_, ?_, hc1, hc2⟩
    · rw [hkeys, hu, List.toFinset_append]
      refine Finset.disjoint_union_left.mpr ⟨?_, ?_⟩
      · refine Finset.disjoint_of_subset_right ?_ hdisj
        rw [h, List.toFinset_cons]
        exact Finset.subset_insert _ _
      · simp only [List.toFinset_cons, List.toFinset_nil, insert_emptyc_eq]
        exact Finset.disjoint_singleton_left.mpr
          (fun hc => hanotrest (List.mem_toFinset.mp hc))
    · rw [hkeys, hu, ← hunion, h]
      ext x
      simp
      tauto

/-- Witness for C7: expanding the root of `partitionArena` (untried `[1, 2]`,
no children) moves the action 1 into the child keys, keeps the partition of
`{1, 2}`, and creates a child with no children and its state's legal list. -/
theorem c7_witness :
    ((getNode (expand_leaf boolBoard partitionArena 0 true).1 0).child_nodes.map Prod.fst =
      (getNode partitionArena 0).child_nodes.map Prod.fst ++ [1]) ∧
    (getNode (expand_leaf boolBoard partitionArena 0 true).1 0).untried_actions = [2] ∧
    Disjoint ((getNode (expand_leaf boolBoard partitionArena 0 true).1 0).child_nodes.map Prod.fst).toFinset
      (getNode (expand_leaf boolBoard partitionArena 0 true).1 0).untried_actions.toFinset ∧
    ((getNode (expand_leaf boolBoard partitionArena 0 true).1 0).child_nodes.map Prod.fst).toFinset ∪
      (getNode (expand_leaf boolBoard partitionArena 0 true).1 0).untried_actions.toFinset =
      ({1, 2} : Finset Nat) ∧
    (getNode (expand_leaf boolBoard partitionArena 0 true).1 (List.length partitionArena)).child_nodes = [] ∧
    (getNode (expand_leaf boolBoard partitionArena 0 true).1 (List.length partitionArena)).untried_actions =
      boolBoard.legal_actions (boolBoard.next_state true 1) :=
  (c7_expand_partition boolBoard partitionArena 0 true {1, 2} (by decide)
    (by decide) (by decide) (by decide)).2 1 [2] rfl
